import Mathlib

/-!
Shallow embedding of the `rust_shm_ipc` repository (files `src/queue.rs`,
`src/shm.rs`, `src/pthread.rs`) and proofs about it.

The embedding models:

* `RingBufferIdx`, `RingBuffer` and its two mutators `write` / `try_read`
  (from `src/queue.rs`), with the Rust array `[Option<T>; 8]` rendered as a
  `List (Option T)` of length 8 and `usize` indices as `Nat`;
* the queue operations `push`, `pop`, `try_pop`, `timed_pop`
  (from `src/queue.rs`), as explicit state passing over the ring buffer,
  with the outcomes of the fallible pthread primitives (`wait`,
  `timed_wait`, `signal`) supplied as parameters, and with the list of
  lock / unlock / wait / signal events each execution performs made
  explicit so that ordering claims can be stated;
* the reference-counting lifecycle of `Shm` (from `src/shm.rs`), as a
  state machine over clone / drop operations, and the sequence of system
  calls performed by `Shm::new`.
-/

namespace ShmIpc

/-- `RingBufferIdx` from `src/queue.rs`: a wrapping index over a buffer of
`bufsize` slots. -/
structure RingBufferIdx where
  bufsize : Nat
  idx : Nat
deriving DecidableEq

/-- `RingBufferIdx::new(start_idx, bufsize)`. -/
def RingBufferIdx.new (start_idx bufsize : Nat) : RingBufferIdx :=
  { bufsize := bufsize, idx := start_idx }

/-- `RingBufferIdx::forward`: `idx += 1; idx %= bufsize`. -/
def RingBufferIdx.forward (r : RingBufferIdx) : RingBufferIdx :=
  { r with idx := (r.idx + 1) % r.bufsize }

/-- `RingBufferIdx::get`. -/
def RingBufferIdx.get (r : RingBufferIdx) : Nat := r.idx

/-- `RING_BUFFER_SIZE` from `src/queue.rs`. -/
def RING_BUFFER_SIZE : Nat := 8

/-- `RingBufferError` from `src/queue.rs`. -/
inductive RingBufferError where
  | Overflow
deriving DecidableEq

/-- `RingBuffer<T>` from `src/queue.rs`: the Rust array `[Option<T>; 8]`
is modelled as a list of length 8 (the length is an invariant established
by `RingBuffer.new` and preserved by both mutators). -/
structure RingBuffer (T : Type) where
  write_idx : RingBufferIdx
  read_idx : RingBufferIdx
  buffer : List (Option T)
deriving DecidableEq

/-- `RingBuffer::new`. -/
def RingBuffer.new (T : Type) : RingBuffer T :=
  { write_idx := RingBufferIdx.new 0 RING_BUFFER_SIZE
    read_idx := RingBufferIdx.new 0 RING_BUFFER_SIZE
    buffer := List.replicate RING_BUFFER_SIZE none }

/-- `RingBuffer::try_read`: `take()` the slot at `read_idx` (leaving it
`None`); if it was present, advance `read_idx`.  When the slot is absent the
`take()` rewrites the slot with the `None` it already holds, so the state is
returned unchanged. -/
def RingBuffer.try_read {T : Type} (rb : RingBuffer T) : Option T × RingBuffer T :=
  match rb.buffer.getD rb.read_idx.get none with
  | some t =>
      (some t,
        { rb with
            buffer := rb.buffer.set rb.read_idx.get none
            read_idx := rb.read_idx.forward })
  | none => (none, rb)

/-- `RingBuffer::write`: if the slot at `write_idx` is `None`, store the
value there and advance `write_idx`, else return `Overflow` and change
nothing. -/
def RingBuffer.write {T : Type} (rb : RingBuffer T) (value : T) :
    Except RingBufferError Unit × RingBuffer T :=
  match rb.buffer.getD rb.write_idx.get none with
  | none =>
      (Except.ok (),
        { rb with
            buffer := rb.buffer.set rb.write_idx.get (some value)
            write_idx := rb.write_idx.forward })
  | some _ => (Except.error RingBufferError.Overflow, rb)

/-- Well-formedness of a ring-buffer state: both indices carry the compiled
capacity `RING_BUFFER_SIZE = 8`, are in range, and the backing array has
length 8.  Holds for `RingBuffer.new` and is preserved by `write` and
`try_read`. -/
def RingBuffer.WF {T : Type} (rb : RingBuffer T) : Prop :=
  rb.write_idx.bufsize = 8 ∧ rb.read_idx.bufsize = 8 ∧
  rb.write_idx.idx < 8 ∧ rb.read_idx.idx < 8 ∧
  rb.buffer.length = 8

/-- Writing a whole list of values, one by one; `none` when some write
overflows (i.e. exactly when not every write succeeds). -/
def RingBuffer.writeAll {T : Type} : RingBuffer T → List T → Option (RingBuffer T)
  | rb, [] => some rb
  | rb, v :: rest =>
      match rb.write v with
      | (Except.ok _, rb') => rb'.writeAll rest
      | (Except.error _, _) => none

/-- `n` consecutive `try_read` calls, collecting the returned options. -/
def RingBuffer.readN {T : Type} : RingBuffer T → Nat → List (Option T) × RingBuffer T
  | rb, 0 => ([], rb)
  | rb, n + 1 =>
      ((rb.try_read).1 :: ((rb.try_read).2.readN n).1, ((rb.try_read).2.readN n).2)

/-- Decidable equality for `Except`, used to evaluate queue results on
concrete inputs. -/
instance {ε α : Type} [DecidableEq ε] [DecidableEq α] : DecidableEq (Except ε α) :=
  fun x y =>
  match x, y with
  | Except.ok a, Except.ok b =>
      if h : a = b then isTrue (by rw [h])
      else isFalse (by intro hx; cases hx; exact h rfl)
  | Except.error a, Except.error b =>
      if h : a = b then isTrue (by rw [h])
      else isFalse (by intro hx; cases hx; exact h rfl)
  | Except.ok _, Except.error _ => isFalse (by intro hx; cases hx)
  | Except.error _, Except.ok _ => isFalse (by intro hx; cases hx)

/-- The errno values the embedding distinguishes.  `nix::Error::Sys(errno)`
is modelled as the errno itself; the queue code inspects only `ETIMEDOUT`. -/
inductive Errno where
  | ETIMEDOUT
  | EINVAL
  | EPERM
  | EAGAIN
deriving DecidableEq

/-- The two condition variables of `Queue` (`src/queue.rs`). -/
inductive CondId where
  | inCond
  | outCond
deriving DecidableEq

/-- Primitive synchronization events a queue operation performs, in program
order: acquiring / releasing the buffer mutex, a successful ring-buffer
write, waiting on a condition variable, and signalling one. -/
inductive QEvent where
  | lock
  | unlock
  | writeOk
  | waitEv (c : CondId)
  | timedWaitEv (c : CondId)
  | signalEv (c : CondId)
deriving DecidableEq

/-- `Queue::try_pop` (`src/queue.rs`):
`Ok(self.buffer.lock()?.try_read())` — lock, `try_read`, and the temporary
guard is dropped (unlocking) at the end of the statement.  No condition
variable is waited on or signalled.  Returns the result of `try_read`
together with the resulting buffer state and the event list of the
execution.  The lock acquisition is modelled as succeeding. -/
def Queue.try_pop {T : Type} (rb : RingBuffer T) :
    Except Errno (Option T) × RingBuffer T × List QEvent :=
  (Except.ok (rb.try_read).1, (rb.try_read).2, [QEvent.lock, QEvent.unlock])

/-- `Queue::timed_pop` (`src/queue.rs`).  `tw` is the outcome of the single
`in_cond.timed_wait` call, should it happen: `Except.error e` models
`pthread_cond_timedwait` returning status `e` (`ETIMEDOUT` when the deadline
elapsed), `Except.ok rbw` models a normal (possibly spurious) wakeup, with
`rbw` the buffer contents observed after the mutex is re-acquired (other
processes may have changed the buffer while we waited).  `sig` is the
outcome of the trailing `out_cond.signal()` (`some e` = failure with status
`e`), whose `?` makes a failure override the poll result.  The guard is
dropped inside the `poll_value` closure, so the unlock precedes the
signal. -/
def Queue.timed_pop {T : Type} (rb : RingBuffer T)
    (tw : Except Errno (RingBuffer T)) (sig : Option Errno) :
    Except Errno (Option T) × RingBuffer T × List QEvent :=
  let poll : Except Errno (Option T) × RingBuffer T × List QEvent :=
    match rb.try_read with
    | (some t, rb') => (Except.ok (some t), rb', [])
    | (none, rb') =>
        match tw with
        | Except.error Errno.ETIMEDOUT =>
            (Except.ok none, rb', [QEvent.timedWaitEv CondId.inCond])
        | Except.error e => (Except.error e, rb', [QEvent.timedWaitEv CondId.inCond])
        | Except.ok rbw =>
            (Except.ok (rbw.try_read).1, (rbw.try_read).2,
              [QEvent.timedWaitEv CondId.inCond])
  let events :=
    QEvent.lock :: poll.2.2 ++ [QEvent.unlock, QEvent.signalEv CondId.outCond]
  match sig with
  | some e => (Except.error e, poll.2.1, events)
  | none => (poll.1, poll.2.1, events)

/-- The `loop` of `Queue::pop`'s `poll_value` closure: `try_read`; on
`Some`, return it; on `None`, wait on `in_cond` and retry.  The list `waits`
supplies the outcome of each successive `wait`: `Except.ok rbw` is a wakeup
that re-acquires the mutex and observes buffer contents `rbw`;
`Except.error e` makes the closure return `Err(e)` (the guard, consumed by
`wait`, is dropped there, unlocking).  Returns `none` when `waits` is too
short to determine the execution (the call is still blocked). -/
def Queue.popLoop {T : Type} :
    List (Except Errno (RingBuffer T)) → RingBuffer T →
    Option (Except Errno T × RingBuffer T × List QEvent)
  | waits, rb =>
      match rb.try_read with
      | (some t, rb') => some (Except.ok t, rb', [])
      | (none, _) =>
          match waits with
          | [] => none
          | Except.ok rbw :: rest =>
              (Queue.popLoop rest rbw).map
                (fun x => (x.1, x.2.1, QEvent.waitEv CondId.inCond :: x.2.2))
          | Except.error e :: _ =>
              some (Except.error e, rb, [QEvent.waitEv CondId.inCond])

/-- `Queue::pop` (`src/queue.rs`): run the polling closure (whose guard is
dropped on closure exit, unlocking), then `out_cond.signal()?`, and only
then return the poll result — a failing signal therefore overrides a poll
result that already took a value. -/
def Queue.pop {T : Type} (rb : RingBuffer T)
    (waits : List (Except Errno (RingBuffer T))) (sig : Option Errno) :
    Option (Except Errno T × RingBuffer T × List QEvent) :=
  match Queue.popLoop waits rb with
  | none => none
  | some (pollResult, rbf, evs) =>
      let events := QEvent.lock :: evs ++ [QEvent.unlock, QEvent.signalEv CondId.outCond]
      match sig with
      | some e => some (Except.error e, rbf, events)
      | none => some (pollResult, rbf, events)

/-- Result of `Queue::push`'s write-retry loop: either the write eventually
succeeded (after `k` waits on `out_cond`), or the `k`-th wait failed with
`e`; `rb` is the final buffer state. -/
inductive PushLoopResult (T : Type) where
  | ok (rb : RingBuffer T) (k : Nat)
  | waitFail (e : Errno) (rb : RingBuffer T) (k : Nat)
deriving DecidableEq

/-- The `while guard.write(value).is_err()` loop of `Queue::push`: each
failed write is followed by a wait on `out_cond` whose outcome comes from
`waits` (as in `Queue.popLoop`).  `none` when `waits` is too short to
determine the execution (the call is still blocked on a full buffer). -/
def Queue.pushLoop {T : Type} :
    List (Except Errno (RingBuffer T)) → RingBuffer T → T →
    Option (PushLoopResult T)
  | waits, rb, v =>
      match rb.write v with
      | (Except.ok _, rb') => some (PushLoopResult.ok rb' 0)
      | (Except.error _, _) =>
          match waits with
          | [] => none
          | Except.ok rbw :: rest =>
              (Queue.pushLoop rest rbw v).map
                (fun r =>
                  match r with
                  | PushLoopResult.ok rbf k => PushLoopResult.ok rbf (k + 1)
                  | PushLoopResult.waitFail e rbf k =>
                      PushLoopResult.waitFail e rbf (k + 1))
          | Except.error e :: _ => some (PushLoopResult.waitFail e rb 1)

/-- `Queue::push` (`src/queue.rs`): lock, retry-loop, then the tail
expression `self.in_cond.signal()` is returned.  In Rust the local `guard`
is dropped at the END of the function body, after the tail expression has
been evaluated — so the signal on `in_cond` is issued while the mutex is
still held, and the unlock is the last event.  (Contrast `pop` /
`timed_pop`, whose guard lives inside an inner closure and is dropped
before the trailing signal.)  On a wait failure the guard was consumed by
`wait` and dropped there, so the unlock precedes the error return and no
signal is issued. -/
def Queue.push {T : Type} (rb : RingBuffer T) (v : T)
    (waits : List (Except Errno (RingBuffer T))) (sig : Option Errno) :
    Option (Except Errno Unit × RingBuffer T × List QEvent) :=
  match Queue.pushLoop waits rb v with
  | none => none
  | some (PushLoopResult.ok rbf k) =>
      let events := QEvent.lock ::
        List.replicate k (QEvent.waitEv CondId.outCond) ++
        [QEvent.writeOk, QEvent.signalEv CondId.inCond, QEvent.unlock]
      match sig with
      | some e => some (Except.error e, rbf, events)
      | none => some (Except.ok (), rbf, events)
  | some (PushLoopResult.waitFail e rbf k) =>
      some (Except.error e, rbf,
        QEvent.lock :: List.replicate k (QEvent.waitEv CondId.outCond) ++
          [QEvent.unlock])

/-- System calls of the shared-memory layer (`src/shm.rs`). -/
inductive SysEvent where
  | shmOpenEv
  | ftruncateEv
  | mmapEv
  | closeEv
  | placementWriteEv
  | shmUnlinkEv
deriving DecidableEq

/-- The sequence of system-level operations a successful `Shm::new`
performs (`src/shm.rs`): `open_shm` = `shm_open` + `ftruncate`; `mmap_shm`
= `mmap`; then `close(shm_fd)`; then `ptr::write` placement-constructs the
header in the mapping.  Nothing else happens before `Shm::new` returns —
in particular the repository contains no `shm_unlink` call at all. -/
def Shm.newTrace : List SysEvent :=
  [SysEvent.shmOpenEv, SysEvent.ftruncateEv, SysEvent.mmapEv,
   SysEvent.closeEv, SysEvent.placementWriteEv]

/-- Observable lifecycle state of one shared region (`src/shm.rs`):
the in-region `ref_ctr`, how many times the payload destructor has run
(`ptr::read(self.inner_ptr)` in `Drop for Shm`), and whether `munmap` has
been called. -/
structure ShmState where
  ref_ctr : Nat
  destructorRuns : Nat
  unmapped : Bool
deriving DecidableEq

/-- `ShmInner::new(data)` as placement-constructed by `Shm::new`:
`ref_ctr = AtomicUsize::new(1)`, payload alive, mapping in place. -/
def ShmState.init : ShmState :=
  { ref_ctr := 1, destructorRuns := 0, unmapped := false }

/-- `Clone for Shm`: `increment_ref_ctr` = `fetch_add(1, SeqCst)`. -/
def ShmState.cloneOp (s : ShmState) : ShmState :=
  { s with ref_ctr := s.ref_ctr + 1 }

/-- `Drop for Shm`: `decrement_ref_ctr` = `fetch_sub(1, SeqCst)`, then if
`ref_count() == 0`, run the payload destructor (`ptr::read`) and `munmap`.
The sequential model: operations on one region happen one at a time. -/
def ShmState.dropOp (s : ShmState) : ShmState :=
  let s1 : ShmState := { s with ref_ctr := s.ref_ctr - 1 }
  if s1.ref_ctr = 0 then
    { s1 with destructorRuns := s1.destructorRuns + 1, unmapped := true }
  else s1

/-- Handle operations performed on a region over its lifetime. -/
inductive ShmOp where
  | cloneH
  | dropH
deriving DecidableEq

/-- Run a sequence of clone / drop operations. -/
def ShmState.run : ShmState → List ShmOp → ShmState
  | s, [] => s
  | s, ShmOp.cloneH :: rest => (s.cloneOp).run rest
  | s, ShmOp.dropH :: rest => (s.dropOp).run rest

/-- A trace is valid for `n` live handles when every operation is performed
through a handle that exists: cloning and dropping both require a live
handle, a clone adds one, a drop removes one. -/
def validFrom : Nat → List ShmOp → Bool
  | _, [] => true
  | n, ShmOp.cloneH :: rest => decide (0 < n) && validFrom (n + 1) rest
  | n, ShmOp.dropH :: rest => decide (0 < n) && validFrom (n - 1) rest

/-- Number of live handles after a trace, starting from `n`. -/
def liveAfter : Nat → List ShmOp → Nat
  | n, [] => n
  | n, ShmOp.cloneH :: rest => liveAfter (n + 1) rest
  | n, ShmOp.dropH :: rest => liveAfter (n - 1) rest

/-- Abstraction relation: the ring-buffer state `rb` holds exactly the queue
contents `l` (front first): the `l.length` slots starting at `read_idx`
(wrapping mod 8) hold the elements of `l` in order, every other slot is
empty, and `write_idx` sits just past the last element. -/
def Models {T : Type} (rb : RingBuffer T) (l : List T) : Prop :=
  rb.WF ∧ l.length ≤ 8 ∧
  rb.write_idx.idx = (rb.read_idx.idx + l.length) % 8 ∧
  (∀ (i : Nat) (hi : i < l.length),
    rb.buffer.getD ((rb.read_idx.idx + i) % 8) none = some (l[i])) ∧
  (∀ j, j < 8 → (∀ i, i < l.length → j ≠ (rb.read_idx.idx + i) % 8) →
    rb.buffer.getD j none = none)

/-- A sample ring-buffer state: one element (`5`) at slot 0, `read_idx = 0`,
`write_idx = 1`; reachable from `RingBuffer.new` by one `write 5`. -/
def rbSample : RingBuffer Nat :=
  { write_idx := { bufsize := 8, idx := 1 }
    read_idx := { bufsize := 8, idx := 0 }
    buffer := [some 5, none, none, none, none, none, none, none] }

end ShmIpc

namespace ShmIpc

/- Auxiliary list lemmas about `getD` after `set`. -/

theorem getD_set_self {α : Type} (l : List α) (i : Nat) (v d : α)
    (h : i < l.length) : (l.set i v).getD i d = v := by
  induction l generalizing i with
  | nil => simp at h
  | cons a t ih =>
      cases i with
      | zero => simp [List.set, List.getD]
      | succ j =>
          simp only [List.set, List.getD_cons_succ]
          exact ih j (by simpa using h)

theorem getD_set_ne {α : Type} (l : List α) (i j : Nat) (v d : α)
    (h : i ≠ j) : (l.set i v).getD j d = l.getD j d := by
  induction l generalizing i j with
  | nil => simp [List.set]
  | cons a t ih =>
      cases i with
      | zero =>
          cases j with
          | zero => exact absurd rfl h
          | succ k => simp [List.set]
      | succ i' =>
          cases j with
          | zero => simp [List.set]
          | succ k =>
              simp only [List.set, List.getD_cons_succ]
              exact ih i' k (fun hx => h (by simp [hx]))

theorem getD_replicate_none {T : Type} (j : Nat) (hj : j < 8) :
    (List.replicate 8 (none : Option T)).getD j none = none := by
  interval_cases j <;> rfl

end ShmIpc

namespace ShmIpc

theorem models_new (T : Type) : Models (RingBuffer.new T) [] := by
  refine ⟨⟨rfl, rfl, Nat.succ_pos 7, Nat.succ_pos 7, rfl⟩, by simp, rfl, ?_, ?_⟩
  · intro i hi; simp at hi
  · intro j hj _
    exact getD_replicate_none j hj

theorem models_write_ok {T : Type} (rb : RingBuffer T) (l : List T) (v : T)
    (hm : Models rb l) (hlt : l.length < 8) :
    (rb.write v).1 = Except.ok () ∧ Models (rb.write v).2 (l ++ [v]) := by
  obtain ⟨⟨hwb, hrb, hwi, hri, hlen⟩, hle, hw, hpres, hnone⟩ := hm
  have hslot : rb.buffer.getD rb.write_idx.get none = none := by
    refine hnone rb.write_idx.idx (by omega) ?_
    intro i hi heq
    omega
  have hred : rb.write v =
      (Except.ok (),
        { rb with
            buffer := rb.buffer.set rb.write_idx.get (some v)
            write_idx := rb.write_idx.forward }) := by
    simp only [RingBuffer.write, hslot]
  refine ⟨by rw [hred], ?_⟩
  rw [hred]
  dsimp only
  refine ⟨⟨by simp [RingBufferIdx.forward, hwb], hrb, ?_, hri, by simp [hlen]⟩,
    by simp; omega, ?_, ?_, ?_⟩
  · simp [RingBufferIdx.forward, hwb]; omega
  · simp only [RingBufferIdx.forward, hwb, List.length_append, List.length_singleton]
    omega
  · dsimp only
    intro i hi
    simp only [List.length_append, List.length_singleton] at hi
    by_cases hcase : i < l.length
    · have hne : rb.write_idx.get ≠ (rb.read_idx.idx + i) % 8 := by
        simp only [RingBufferIdx.get]
        omega
      rw [getD_set_ne _ _ _ _ _ hne]
      rw [List.getElem_append_left hcase]
      exact hpres i hcase
    · have hieq : i = l.length := by omega
      subst hieq
      have hidx : (rb.read_idx.idx + l.length) % 8 = rb.write_idx.get := by
        simp only [RingBufferIdx.get]; omega
      rw [hidx, getD_set_self _ _ _ _ (by simp only [RingBufferIdx.get]; omega)]
      congr 1
      simp
  · dsimp only
    intro j hj hout
    have hne : rb.write_idx.get ≠ j := by
      intro heq
      exact hout l.length (by simp) (by simp only [RingBufferIdx.get] at heq; omega)
    rw [getD_set_ne _ _ _ _ _ hne]
    refine hnone j hj ?_
    intro i hi
    exact hout i (by simp; omega)

theorem models_write_full {T : Type} (rb : RingBuffer T) (l : List T) (v : T)
    (hm : Models rb l) (hfull : l.length = 8) :
    rb.write v = (Except.error RingBufferError.Overflow, rb) := by
  obtain ⟨⟨hwb, hrb, hwi, hri, hlen⟩, hle, hw, hpres, hnone⟩ := hm
  have h0 : (0 : Nat) < l.length := by omega
  have hslot := hpres 0 h0
  have hidx : (rb.read_idx.idx + 0) % 8 = rb.write_idx.get := by
    simp only [RingBufferIdx.get]; omega
  rw [hidx] at hslot
  simp only [RingBuffer.write, hslot]

theorem models_read_cons {T : Type} (rb : RingBuffer T) (l : List T) (v : T)
    (hm : Models rb (v :: l)) :
    rb.try_read =
      (some v,
        { rb with
            buffer := rb.buffer.set rb.read_idx.get none
            read_idx := rb.read_idx.forward }) ∧
    Models
      { rb with
          buffer := rb.buffer.set rb.read_idx.get none
          read_idx := rb.read_idx.forward } l := by
  obtain ⟨⟨hwb, hrb, hwi, hri, hlen⟩, hle, hw, hpres, hnone⟩ := hm
  simp only [List.length_cons] at hle hw
  have hslot := hpres 0 (by simp)
  have hidx : (rb.read_idx.idx + 0) % 8 = rb.read_idx.get := by
    simp only [RingBufferIdx.get]; omega
  rw [hidx] at hslot
  simp only [List.getElem_cons_zero] at hslot
  have hred : rb.try_read =
      (some v,
        { rb with
            buffer := rb.buffer.set rb.read_idx.get none
            read_idx := rb.read_idx.forward }) := by
    simp only [RingBuffer.try_read, hslot]
  refine ⟨hred, ⟨⟨hwb, by simp [RingBufferIdx.forward, hrb], hwi, ?_, by simp [hlen]⟩,
    by omega, ?_, ?_, ?_⟩⟩
  · simp [RingBufferIdx.forward, hrb]; omega
  · simp only [RingBufferIdx.forward, hrb]
    omega
  · intro i hi
    simp only [RingBufferIdx.forward, hrb]
    have hne : rb.read_idx.get ≠ ((rb.read_idx.idx + 1) % 8 + i) % 8 := by
      simp only [RingBufferIdx.get]
      omega
    rw [getD_set_ne _ _ _ _ _ hne]
    have hstep : ((rb.read_idx.idx + 1) % 8 + i) % 8 = (rb.read_idx.idx + (i + 1)) % 8 := by
      omega
    rw [hstep]
    have := hpres (i + 1) (by simpa using Nat.succ_lt_succ hi)
    simpa using this
  · intro j hj hout
    simp only [RingBufferIdx.forward, hrb] at hout
    by_cases hcase : j = rb.read_idx.get
    · subst hcase
      exact getD_set_self _ _ _ _ (by simp only [RingBufferIdx.get]; omega)
    · rw [getD_set_ne _ _ _ _ _ (fun h => hcase h.symm)]
      refine hnone j hj ?_
      intro i hi
      cases i with
      | zero =>
          intro heq
          exact hcase (by simp only [RingBufferIdx.get]; omega)
      | succ k =>
          intro heq
          refine hout k (by simpa using Nat.lt_of_succ_lt_succ hi) ?_
          omega

theorem models_read_nil {T : Type} (rb : RingBuffer T) (hm : Models rb []) :
    rb.try_read = (none, rb) := by
  obtain ⟨⟨hwb, hrb, hwi, hri, hlen⟩, hle, hw, hpres, hnone⟩ := hm
  have hslot : rb.buffer.getD rb.read_idx.get none = none := by
    refine hnone rb.read_idx.get (by simp only [RingBufferIdx.get]; omega) ?_
    intro i hi
    simp at hi
  simp only [RingBuffer.try_read, hslot]

end ShmIpc

namespace ShmIpc

theorem models_writeAll {T : Type} (vs : List T) :
    ∀ (rb : RingBuffer T) (l : List T) (rbf : RingBuffer T),
      Models rb l → rb.writeAll vs = some rbf → Models rbf (l ++ vs) := by
  induction vs with
  | nil =>
      intro rb l rbf hm h
      simp only [RingBuffer.writeAll] at h
      cases h
      simpa using hm
  | cons v rest ih =>
      intro rb l rbf hm h
      have hle : l.length ≤ 8 := hm.2.1
      rcases Nat.lt_or_ge l.length 8 with hlt | hge
      · obtain ⟨hok, hm'⟩ := models_write_ok rb l v hm hlt
        rcases hwv : rb.write v with ⟨e, rb2⟩
        rw [hwv] at hok hm'
        dsimp only at hok hm'
        subst hok
        simp only [RingBuffer.writeAll, hwv] at h
        have := ih rb2 (l ++ [v]) rbf hm' h
        simpa [List.append_assoc] using this
      · have hfull : l.length = 8 := by omega
        have herr := models_write_full rb l v hm hfull
        simp only [RingBuffer.writeAll, herr] at h
        exact Option.noConfusion h

theorem models_readN {T : Type} (l : List T) :
    ∀ rb : RingBuffer T, Models rb l → (rb.readN l.length).1 = l.map some := by
  induction l with
  | nil => intro rb _; rfl
  | cons v rest ih =>
      intro rb hm
      obtain ⟨hread, hm'⟩ := models_read_cons rb rest v hm
      show (rb.readN (rest.length + 1)).1 = _
      simp only [RingBuffer.readN, hread, List.map_cons]
      exact congrArg (some v :: ·) (ih _ hm')

/-- C1: writing a finite sequence of values one by one into a fresh ring
buffer (every write succeeding, which `writeAll` returning `some` encodes),
and then performing the same number of `try_read` calls with no interleaved
operations, yields exactly the written values, in writing order. -/
theorem fifo_single_producer {T : Type} (vs : List T) (rb : RingBuffer T)
    (h : (RingBuffer.new T).writeAll vs = some rb) :
    (rb.readN vs.length).1 = vs.map some := by
  have hm := models_writeAll vs (RingBuffer.new T) [] rb (models_new T) h
  exact models_readN vs rb (by simpa using hm)

/-- Witness for `fifo_single_producer` at `vs = [3, 1, 2]`. -/
theorem fifo_single_producer_witness :
    (RingBuffer.new Nat).writeAll [3, 1, 2] = some
      { write_idx := { bufsize := 8, idx := 3 }
        read_idx := { bufsize := 8, idx := 0 }
        buffer := [some 3, some 1, some 2, none, none, none, none, none] } ∧
    (({ write_idx := { bufsize := 8, idx := 3 }
        read_idx := { bufsize := 8, idx := 0 }
        buffer := [some 3, some 1, some 2, none, none, none, none, none] } :
          RingBuffer Nat).readN 3).1 = [some 3, some 1, some 2] :=
  ⟨by decide, fifo_single_producer [3, 1, 2] _ (by decide)⟩

end ShmIpc

namespace ShmIpc

/-- C5: on any well-formed ring-buffer state, `write v` returns `Overflow`
and changes nothing when the slot at `write_idx` is present; otherwise it
stores `Some v` into that slot, advances `write_idx` to
`(write_idx + 1) mod 8`, leaves `read_idx` and every other slot unchanged,
and returns OK. -/
theorem write_spec {T : Type} (rb : RingBuffer T) (v : T) (hwf : rb.WF) :
    ((rb.buffer.getD rb.write_idx.get none).isSome = true →
      rb.write v = (Except.error RingBufferError.Overflow, rb)) ∧
    (rb.buffer.getD rb.write_idx.get none = none →
      (rb.write v).1 = Except.ok () ∧
      (rb.write v).2.buffer.getD rb.write_idx.get none = some v ∧
      (rb.write v).2.write_idx.idx = (rb.write_idx.idx + 1) % 8 ∧
      (rb.write v).2.read_idx = rb.read_idx ∧
      (∀ j, j ≠ rb.write_idx.get →
        (rb.write v).2.buffer.getD j none = rb.buffer.getD j none)) := by
  obtain ⟨hwb, hrb, hwi, hri, hlen⟩ := hwf
  constructor
  · intro hp
    rcases hs : rb.buffer.getD rb.write_idx.get none with _ | t
    · rw [hs] at hp; simp at hp
    · simp only [RingBuffer.write, hs]
  · intro hn
    have hred : rb.write v =
        (Except.ok (),
          { rb with
              buffer := rb.buffer.set rb.write_idx.get (some v)
              write_idx := rb.write_idx.forward }) := by
      simp only [RingBuffer.write, hn]
    rw [hred]
    dsimp only
    refine ⟨rfl, ?_, ?_, rfl, ?_⟩
    · exact getD_set_self _ _ _ _ (by simp only [RingBufferIdx.get]; omega)
    · simp [RingBufferIdx.forward, hwb]
    · intro j hj
      exact getD_set_ne _ _ _ _ _ (fun h => hj h.symm)

/-- Witness for `write_spec`: on `rbSample` (slot at `write_idx = 1` empty)
the write succeeds, stores the value at slot 1, and advances `write_idx`
to 2. -/
theorem write_spec_witness :
    RingBuffer.WF rbSample ∧
    (rbSample.write 7).1 = Except.ok () ∧
    (rbSample.write 7).2.buffer.getD 1 none = some 7 ∧
    (rbSample.write 7).2.write_idx.idx = 2 ∧
    (rbSample.write 7).2.read_idx = rbSample.read_idx := by
  have hwf : RingBuffer.WF rbSample := ⟨rfl, rfl, by decide, by decide, rfl⟩
  have h := (write_spec rbSample 7 hwf).2 (by decide)
  exact ⟨hwf, h.1, h.2.1, h.2.2.1, h.2.2.2.1⟩

/-- C6: on any well-formed ring-buffer state, `try_read` takes the slot at
`read_idx` (leaving it absent) and advances `read_idx` to
`(read_idx + 1) mod 8` exactly when the slot was present, leaving
`write_idx` and every other slot unchanged, and returns the taken value;
when the slot is absent it returns `none` and the whole state is
unchanged. -/
theorem try_read_spec {T : Type} (rb : RingBuffer T) (hwf : rb.WF) :
    (∀ t, rb.buffer.getD rb.read_idx.get none = some t →
      (rb.try_read).1 = some t ∧
      (rb.try_read).2.buffer.getD rb.read_idx.get none = none ∧
      (rb.try_read).2.read_idx.idx = (rb.read_idx.idx + 1) % 8 ∧
      (rb.try_read).2.write_idx = rb.write_idx ∧
      (∀ j, j ≠ rb.read_idx.get →
        (rb.try_read).2.buffer.getD j none = rb.buffer.getD j none)) ∧
    (rb.buffer.getD rb.read_idx.get none = none → rb.try_read = (none, rb)) := by
  obtain ⟨hwb, hrb, hwi, hri, hlen⟩ := hwf
  constructor
  · intro t ht
    have hred : rb.try_read =
        (some t,
          { rb with
              buffer := rb.buffer.set rb.read_idx.get none
              read_idx := rb.read_idx.forward }) := by
      simp only [RingBuffer.try_read, ht]
    rw [hred]
    dsimp only
    refine ⟨rfl, ?_, ?_, rfl, ?_⟩
    · exact getD_set_self _ _ _ _ (by simp only [RingBufferIdx.get]; omega)
    · simp [RingBufferIdx.forward, hrb]
    · intro j hj
      exact getD_set_ne _ _ _ _ _ (fun h => hj h.symm)
  · intro hn
    simp only [RingBuffer.try_read, hn]

/-- Witness for `try_read_spec`: on `rbSample` (slot at `read_idx = 0`
holds `5`) `try_read` returns `5`, empties slot 0, and advances `read_idx`
to 1. -/
theorem try_read_spec_witness :
    RingBuffer.WF rbSample ∧
    rbSample.buffer.getD 0 none = some 5 ∧
    (rbSample.try_read).1 = some 5 ∧
    (rbSample.try_read).2.buffer.getD 0 none = none ∧
    (rbSample.try_read).2.read_idx.idx = 1 ∧
    (rbSample.try_read).2.write_idx = rbSample.write_idx := by
  have hwf : RingBuffer.WF rbSample := ⟨rfl, rfl, by decide, by decide, rfl⟩
  have h := (try_read_spec rbSample hwf).1 5 (by decide)
  exact ⟨hwf, by decide, h.1, h.2.1, h.2.2.1, h.2.2.2.1⟩

end ShmIpc

namespace ShmIpc

/-- C7: from a fresh capacity-8 ring buffer, 8 consecutive writes all
succeed (`writeAll` returns `some`), the 9th write returns `Overflow`
changing nothing — and the corresponding `push` does not complete (it
blocks waiting on `out_cond`); after one successful `try_read` (returning
the first value) exactly one further write succeeds before the next write
returns `Overflow` again. -/
theorem capacity_boundary (v : Nat → Nat) :
    ∃ rb8 : RingBuffer Nat,
      (RingBuffer.new Nat).writeAll
        [v 0, v 1, v 2, v 3, v 4, v 5, v 6, v 7] = some rb8 ∧
      (rb8.write (v 8)).1 = Except.error RingBufferError.Overflow ∧
      (rb8.write (v 8)).2 = rb8 ∧
      Queue.push rb8 (v 8) [] none = none ∧
      ∃ rb9 : RingBuffer Nat,
        rb8.try_read = (some (v 0), rb9) ∧
        (rb9.write (v 8)).1 = Except.ok () ∧
        ((rb9.write (v 8)).2.write (v 9)).1 = Except.error RingBufferError.Overflow := by
  refine ⟨{ write_idx := { bufsize := 8, idx := 0 }
            read_idx := { bufsize := 8, idx := 0 }
            buffer := [some (v 0), some (v 1), some (v 2), some (v 3),
              some (v 4), some (v 5), some (v 6), some (v 7)] },
    ?_, ?_, ?_, ?_,
    { write_idx := { bufsize := 8, idx := 0 }
      read_idx := { bufsize := 8, idx := 1 }
      buffer := [none, some (v 1), some (v 2), some (v 3),
        some (v 4), some (v 5), some (v 6), some (v 7)] },
    ?_, ?_, ?_⟩ <;>
  simp [RingBuffer.writeAll, RingBuffer.write, RingBuffer.try_read,
    RingBuffer.new, RingBufferIdx.new, RingBufferIdx.forward,
    RingBufferIdx.get, RING_BUFFER_SIZE, Queue.push, Queue.pushLoop]

/-- C4 (amended): `try_pop` acquires the buffer mutex, performs no wait and
no signal (its whole event trace is lock-then-unlock, so it never blocks);
on an empty buffer it returns `Ok(None)` and leaves the state unchanged; on
a non-empty buffer it takes the value at `read_idx`, empties that slot,
advances `read_idx`, and releases the mutex.  Contrary to the claim it does
NOT signal `out_cond` afterwards. -/
theorem try_pop_spec {T : Type} (rb : RingBuffer T) (hwf : rb.WF) :
    (Queue.try_pop rb).2.2 = [QEvent.lock, QEvent.unlock] ∧
    (∀ c, QEvent.signalEv c ∉ (Queue.try_pop rb).2.2) ∧
    (∀ c, QEvent.waitEv c ∉ (Queue.try_pop rb).2.2) ∧
    (rb.buffer.getD rb.read_idx.get none = none →
      (Queue.try_pop rb).1 = Except.ok none ∧ (Queue.try_pop rb).2.1 = rb) ∧
    (∀ t, rb.buffer.getD rb.read_idx.get none = some t →
      (Queue.try_pop rb).1 = Except.ok (some t) ∧
      (Queue.try_pop rb).2.1.buffer.getD rb.read_idx.get none = none ∧
      (Queue.try_pop rb).2.1.read_idx.idx = (rb.read_idx.idx + 1) % 8) := by
  refine ⟨rfl, ?_, ?_, ?_, ?_⟩
  · intro c h
    simp [Queue.try_pop] at h
  · intro c h
    simp [Queue.try_pop] at h
  · intro hn
    have h := (try_read_spec rb hwf).2 hn
    constructor
    · show Except.ok (rb.try_read).1 = Except.ok none
      rw [h]
    · show (rb.try_read).2 = rb
      rw [h]
  · intro t ht
    have h := (try_read_spec rb hwf).1 t ht
    exact ⟨congrArg Except.ok h.1, h.2.1, h.2.2.1⟩

/-- Witness for `try_pop_spec` on the non-empty state `rbSample`. -/
theorem try_pop_spec_witness :
    RingBuffer.WF rbSample ∧
    (Queue.try_pop rbSample).2.2 = [QEvent.lock, QEvent.unlock] ∧
    (Queue.try_pop rbSample).1 = Except.ok (some 5) ∧
    (Queue.try_pop rbSample).2.1.read_idx.idx = 1 := by
  have hwf : RingBuffer.WF rbSample := ⟨rfl, rfl, by decide, by decide, rfl⟩
  have h := try_pop_spec rbSample hwf
  exact ⟨hwf, h.1, (h.2.2.2.2 5 (by decide)).1, (h.2.2.2.2 5 (by decide)).2.2⟩

/-- C4 counterexample: on the concrete non-empty state `rbSample`,
`try_pop` does take the value, but its execution contains no signal on
`out_cond` — refuting the claim that a non-empty `try_pop` "releases the
mutex, and then signals `out_cond`". -/
theorem try_pop_missing_signal :
    (Queue.try_pop rbSample).1 = Except.ok (some 5) ∧
    QEvent.signalEv CondId.outCond ∉ (Queue.try_pop rbSample).2.2 := by
  decide

end ShmIpc

namespace ShmIpc

/-- C8: `timed_pop` with the trailing signal succeeding: on a non-empty
buffer it takes the front value immediately, with no (timed) wait in its
trace, whatever the wait outcome parameter says; on an empty buffer it
performs exactly one timed wait, and the wait outcome maps to the result as
the code does: ETIMEDOUT becomes the successful `Ok(None)`, any other
primitive error `e` is propagated as `Err(e)`, and a normal wakeup
re-checks the buffer observed after re-acquiring the mutex and returns
whatever `try_read` yields there (possibly `None` after a spurious
wakeup). -/
theorem timed_pop_spec {T : Type} (rb rbw : RingBuffer T) (e : Errno) :
    (∀ t, rb.buffer.getD rb.read_idx.get none = some t → ∀ tw,
      (Queue.timed_pop rb tw none).1 = Except.ok (some t) ∧
      (Queue.timed_pop rb tw none).2.1 = (rb.try_read).2 ∧
      (∀ c, QEvent.timedWaitEv c ∉ (Queue.timed_pop rb tw none).2.2) ∧
      (∀ c, QEvent.waitEv c ∉ (Queue.timed_pop rb tw none).2.2)) ∧
    (rb.buffer.getD rb.read_idx.get none = none →
      (∀ tw, (Queue.timed_pop rb tw none).2.2.count
        (QEvent.timedWaitEv CondId.inCond) = 1) ∧
      (Queue.timed_pop rb (Except.error Errno.ETIMEDOUT) none).1 = Except.ok none ∧
      (e ≠ Errno.ETIMEDOUT →
        (Queue.timed_pop rb (Except.error e) none).1 = Except.error e) ∧
      (Queue.timed_pop rb (Except.ok rbw) none).1 = Except.ok ((rbw.try_read).1) ∧
      (Queue.timed_pop rb (Except.ok rbw) none).2.1 = (rbw.try_read).2) := by
  constructor
  · intro t ht tw
    have hred : rb.try_read =
        (some t,
          { rb with
              buffer := rb.buffer.set rb.read_idx.get none
              read_idx := rb.read_idx.forward }) := by
      simp only [RingBuffer.try_read, ht]
    refine ⟨?_, ?_, ?_, ?_⟩
    · simp only [Queue.timed_pop, hred]
    · simp only [Queue.timed_pop, hred]
    · intro c h
      simp only [Queue.timed_pop, hred] at h
      simp at h
    · intro c h
      simp only [Queue.timed_pop, hred] at h
      simp at h
  · intro hn
    have hred : rb.try_read = (none, rb) := by
      simp only [RingBuffer.try_read, hn]
    refine ⟨?_, ?_, ?_, ?_, ?_⟩
    · intro tw
      cases tw with
      | ok rbw2 => simp only [Queue.timed_pop, hred]; rfl
      | error e2 => cases e2 <;> (simp only [Queue.timed_pop, hred]; rfl)
    · simp only [Queue.timed_pop, hred]
    · intro hne
      cases e with
      | ETIMEDOUT => exact absurd rfl hne
      | EINVAL => simp only [Queue.timed_pop, hred]
      | EPERM => simp only [Queue.timed_pop, hred]
      | EAGAIN => simp only [Queue.timed_pop, hred]
    · simp only [Queue.timed_pop, hred]
    · simp only [Queue.timed_pop, hred]

/-- Witness for `timed_pop_spec`: non-empty `rbSample` yields its value
immediately; a fresh (empty) buffer converts ETIMEDOUT into `Ok(None)`,
propagates EINVAL, and on a wakeup observing `rbSample` returns its
value. -/
theorem timed_pop_spec_witness :
    rbSample.buffer.getD 0 none = some 5 ∧
    (Queue.timed_pop rbSample (Except.error Errno.ETIMEDOUT) none).1 =
      Except.ok (some 5) ∧
    (RingBuffer.new Nat).buffer.getD 0 none = none ∧
    (Queue.timed_pop (RingBuffer.new Nat) (Except.error Errno.ETIMEDOUT) none).1 =
      Except.ok none ∧
    (Queue.timed_pop (RingBuffer.new Nat) (Except.error Errno.EINVAL) none).1 =
      Except.error Errno.EINVAL ∧
    (Queue.timed_pop (RingBuffer.new Nat) (Except.ok rbSample) none).1 =
      Except.ok (some 5) := by
  have h1 := (timed_pop_spec rbSample rbSample Errno.EINVAL).1 5 (by decide)
    (Except.error Errno.ETIMEDOUT)
  have h2 := (timed_pop_spec (RingBuffer.new Nat) rbSample Errno.EINVAL).2 (by decide)
  exact ⟨by decide, h1.1, by decide, h2.2.1, h2.2.2.1 (by decide), h2.2.2.2.1⟩

end ShmIpc

namespace ShmIpc

/-- C9 (amended): every completed successful `push` execution starts with
the lock, ends with exactly one unlock, and signals `in_cond` BEFORE that
final unlock: the signal is issued while the buffer mutex is still held,
because the tail expression `self.in_cond.signal()` is evaluated before the
local `guard` is dropped at the end of the function body.  (The claim's
order — unlock, then signal — is the opposite.) -/
theorem push_signals_while_locked {T : Type} (rb rbf : RingBuffer T) (v : T)
    (waits : List (Except Errno (RingBuffer T))) (evs : List QEvent)
    (h : Queue.push rb v waits none = some (Except.ok (), rbf, evs)) :
    evs.head? = some QEvent.lock ∧
    evs.getLast? = some QEvent.unlock ∧
    evs.count QEvent.unlock = 1 ∧
    QEvent.signalEv CondId.inCond ∈ evs.dropLast := by
  have hshape : ∃ k, evs =
      QEvent.lock :: (List.replicate k (QEvent.waitEv CondId.outCond) ++
        [QEvent.writeOk, QEvent.signalEv CondId.inCond, QEvent.unlock]) := by
    unfold Queue.push at h
    cases hpl : Queue.pushLoop waits rb v with
    | none =>
        rw [hpl] at h
        exact absurd h (by simp)
    | some r =>
        rw [hpl] at h
        cases r with
        | ok rbf2 k =>
            refine ⟨k, ?_⟩
            dsimp only at h
            simp only [Option.some.injEq, Prod.mk.injEq] at h
            exact h.2.2.symm
        | waitFail e2 rbf2 k =>
            dsimp only at h
            simp at h
  obtain ⟨k, hk⟩ := hshape
  have hconc : evs =
      (QEvent.lock :: (List.replicate k (QEvent.waitEv CondId.outCond) ++
        [QEvent.writeOk, QEvent.signalEv CondId.inCond])) ++ [QEvent.unlock] := by
    rw [hk]
    simp
  refine ⟨?_, ?_, ?_, ?_⟩
  · rw [hk]; rfl
  · rw [hconc, List.getLast?_concat]
  · rw [hconc]
    simp [List.count_append, List.count_cons, List.count_replicate]
  · rw [hconc, List.dropLast_concat]
    simp

/-- Witness for `push_signals_while_locked`: a push of `0` into a fresh
buffer completes with trace lock, write, signal `in_cond`, unlock. -/
theorem push_signals_while_locked_witness :
    Queue.push (RingBuffer.new Nat) 0 [] none =
      some (Except.ok (),
        { write_idx := { bufsize := 8, idx := 1 }
          read_idx := { bufsize := 8, idx := 0 }
          buffer := [some 0, none, none, none, none, none, none, none] },
        [QEvent.lock, QEvent.writeOk, QEvent.signalEv CondId.inCond,
          QEvent.unlock]) ∧
    ([QEvent.lock, QEvent.writeOk, QEvent.signalEv CondId.inCond,
        QEvent.unlock].head? = some QEvent.lock ∧
      [QEvent.lock, QEvent.writeOk, QEvent.signalEv CondId.inCond,
        QEvent.unlock].getLast? = some QEvent.unlock ∧
      [QEvent.lock, QEvent.writeOk, QEvent.signalEv CondId.inCond,
        QEvent.unlock].count QEvent.unlock = 1 ∧
      QEvent.signalEv CondId.inCond ∈
        [QEvent.lock, QEvent.writeOk, QEvent.signalEv CondId.inCond,
          QEvent.unlock].dropLast) := by
  have hp : Queue.push (RingBuffer.new Nat) 0 [] none =
      some (Except.ok (),
        { write_idx := { bufsize := 8, idx := 1 }
          read_idx := { bufsize := 8, idx := 0 }
          buffer := [some 0, none, none, none, none, none, none, none] },
        [QEvent.lock, QEvent.writeOk, QEvent.signalEv CondId.inCond,
          QEvent.unlock]) := by decide
  exact ⟨hp, push_signals_while_locked _ _ _ _ _ hp⟩

/-- C9 counterexample: in the concrete successful push of `0` into a fresh
buffer, the signal on `in_cond` occurs strictly before the unlock (it lies
in the part of the trace preceding the unlock), refuting the claim that no
execution signals `in_cond` while the lock is still held. -/
theorem push_unlock_after_signal :
    Queue.push (RingBuffer.new Nat) 0 [] none =
      some (Except.ok (),
        { write_idx := { bufsize := 8, idx := 1 }
          read_idx := { bufsize := 8, idx := 0 }
          buffer := [some 0, none, none, none, none, none, none, none] },
        [QEvent.lock, QEvent.writeOk, QEvent.signalEv CondId.inCond,
          QEvent.unlock]) ∧
    QEvent.signalEv CondId.inCond ∈
      ([QEvent.lock, QEvent.writeOk, QEvent.signalEv CondId.inCond,
        QEvent.unlock].takeWhile (fun x => x != QEvent.unlock)) := by
  exact ⟨by decide, by decide⟩

end ShmIpc

namespace ShmIpc

/-- C10: when the buffer is non-empty and the trailing `out_cond.signal()`
fails with `e`, both `pop` and `timed_pop` have already consumed the value
at `read_idx` by the time the signal runs, and the `?` on the signal makes
them return `Err(e)` while keeping the consumed buffer state: the slot is
left absent and the taken value appears in no result.  An error return
therefore does not imply the queue state is unchanged. -/
theorem pop_signal_failure_discards_value {T : Type} (rb : RingBuffer T)
    (t : T) (e : Errno) (hwf : rb.WF)
    (ht : rb.buffer.getD rb.read_idx.get none = some t) :
    Queue.pop rb [] (some e) =
      some (Except.error e, (rb.try_read).2,
        [QEvent.lock, QEvent.unlock, QEvent.signalEv CondId.outCond]) ∧
    (∀ tw, (Queue.timed_pop rb tw (some e)).1 = Except.error e ∧
      (Queue.timed_pop rb tw (some e)).2.1 = (rb.try_read).2) ∧
    (rb.try_read).1 = some t ∧
    (rb.try_read).2.buffer.getD rb.read_idx.get none = none := by
  have hred : rb.try_read =
      (some t,
        { rb with
            buffer := rb.buffer.set rb.read_idx.get none
            read_idx := rb.read_idx.forward }) := by
    simp only [RingBuffer.try_read, ht]
  have hspec := (try_read_spec rb hwf).1 t ht
  refine ⟨?_, ?_, hspec.1, hspec.2.1⟩
  · simp only [Queue.pop, Queue.popLoop, hred]
    rfl
  · intro tw
    constructor
    · simp only [Queue.timed_pop, hred]
    · simp only [Queue.timed_pop, hred]

/-- Witness for `pop_signal_failure_discards_value` on `rbSample` with a
failing signal (`EPERM`): the value `5` is consumed but `Err(EPERM)` is
returned, and the slot is left empty. -/
theorem pop_signal_failure_witness :
    RingBuffer.WF rbSample ∧
    rbSample.buffer.getD 0 none = some 5 ∧
    Queue.pop rbSample [] (some Errno.EPERM) =
      some (Except.error Errno.EPERM,
        { write_idx := { bufsize := 8, idx := 1 }
          read_idx := { bufsize := 8, idx := 1 }
          buffer := [none, none, none, none, none, none, none, none] },
        [QEvent.lock, QEvent.unlock, QEvent.signalEv CondId.outCond]) ∧
    (Queue.timed_pop rbSample (Except.error Errno.ETIMEDOUT)
      (some Errno.EPERM)).1 = Except.error Errno.EPERM ∧
    (rbSample.try_read).2.buffer.getD 0 none = none := by
  have hwf : RingBuffer.WF rbSample := ⟨rfl, rfl, by decide, by decide, rfl⟩
  have h := pop_signal_failure_discards_value rbSample 5 Errno.EPERM hwf (by decide)
  exact ⟨hwf, by decide, h.1, (h.2.1 (Except.error Errno.ETIMEDOUT)).1, h.2.2.2⟩

end ShmIpc

namespace ShmIpc

theorem shm_run_invariant (ops : List ShmOp) :
    ∀ (n : Nat) (s : ShmState), validFrom n ops = true →
      s.ref_ctr = n →
      s.destructorRuns = (if n = 0 then 1 else 0) →
      (s.unmapped = true ↔ n = 0) →
      (s.run ops).ref_ctr = liveAfter n ops ∧
      (s.run ops).destructorRuns = (if liveAfter n ops = 0 then 1 else 0) ∧
      ((s.run ops).unmapped = true ↔ liveAfter n ops = 0) := by
  induction ops with
  | nil =>
      intro n s _ h1 h2 h3
      simp only [ShmState.run, liveAfter]
      exact ⟨h1, h2, h3⟩
  | cons op rest ih =>
      intro n s hv h1 h2 h3
      cases op with
      | cloneH =>
          rw [validFrom, Bool.and_eq_true, decide_eq_true_eq] at hv
          obtain ⟨hn, hv'⟩ := hv
          have hne : ¬ n = 0 := by omega
          simp only [ShmState.run, liveAfter]
          refine ih (n + 1) s.cloneOp hv' ?_ ?_ ?_
          · simp [ShmState.cloneOp, h1]
          · simp only [ShmState.cloneOp]
            rw [h2]
            simp [hne]
          · simp only [ShmState.cloneOp]
            rw [h3]
            omega
      | dropH =>
          rw [validFrom, Bool.and_eq_true, decide_eq_true_eq] at hv
          obtain ⟨hn, hv'⟩ := hv
          have hne : ¬ n = 0 := by omega
          simp only [ShmState.run, liveAfter]
          refine ih (n - 1) s.dropOp hv' ?_ ?_ ?_ <;>
            simp only [ShmState.dropOp, h1]
          · by_cases hz : n - 1 = 0 <;> simp [hz]
          · by_cases hz : n - 1 = 0
            · simp only [hz, if_true, if_pos hz]
              rw [h2]
              simp [hne]
            · simp only [if_neg hz]
              rw [h2]
              simp [hne, hz]
          · by_cases hz : n - 1 = 0
            · simp [hz]
            · simp only [if_neg hz]
              simp only [hz, iff_false]
              cases hsu : s.unmapped with
              | false => simp
              | true => exact absurd (h3.mp hsu) hne

/-- C2: the reference-counting lifecycle of a shared region.  `Shm::new`
placement-constructs `ref_ctr = 1`; every `clone` increments `ref_ctr` by
exactly 1 and runs no destructor; every `drop` decrements it by exactly 1;
a drop that leaves `ref_ctr` nonzero runs no destructor and does not unmap;
the drop that takes `ref_ctr` to zero runs the destructor and unmaps; and
over any valid trace of clones and drops the destructor has run exactly
once if all handles are gone and not at all otherwise, with the unmapping
happening exactly when the destructor has run. -/
theorem shm_refcount_lifecycle (ops : List ShmOp) (s : ShmState)
    (hv : validFrom 1 ops = true) :
    ShmState.init.ref_ctr = 1 ∧
    ((s.cloneOp).ref_ctr = s.ref_ctr + 1 ∧
      (s.cloneOp).destructorRuns = s.destructorRuns ∧
      (s.cloneOp).unmapped = s.unmapped) ∧
    (0 < s.ref_ctr → (s.dropOp).ref_ctr = s.ref_ctr - 1) ∧
    (1 < s.ref_ctr →
      (s.dropOp).destructorRuns = s.destructorRuns ∧
      (s.dropOp).unmapped = s.unmapped) ∧
    (s.ref_ctr = 1 →
      (s.dropOp).destructorRuns = s.destructorRuns + 1 ∧
      (s.dropOp).unmapped = true) ∧
    (ShmState.init.run ops).ref_ctr = liveAfter 1 ops ∧
    (ShmState.init.run ops).destructorRuns =
      (if liveAfter 1 ops = 0 then 1 else 0) ∧
    ((ShmState.init.run ops).unmapped = true ↔ liveAfter 1 ops = 0) := by
  have hrun := shm_run_invariant ops 1 ShmState.init hv rfl rfl
    (by simp [ShmState.init])
  refine ⟨rfl, ⟨rfl, rfl, rfl⟩, ?_, ?_, ?_, hrun.1, hrun.2.1, hrun.2.2⟩
  · intro _
    simp only [ShmState.dropOp]
    by_cases hz : s.ref_ctr - 1 = 0 <;> simp [hz]
  · intro hgt
    have hz : s.ref_ctr - 1 ≠ 0 := by omega
    simp only [ShmState.dropOp]
    simp [hz]
  · intro h1
    simp only [ShmState.dropOp, h1]
    simp

/-- Witness for `shm_refcount_lifecycle` on the trace clone, drop, drop:
the destructor runs exactly once and the region ends unmapped with
`ref_ctr = 0`. -/
theorem shm_refcount_lifecycle_witness :
    validFrom 1 [ShmOp.cloneH, ShmOp.dropH, ShmOp.dropH] = true ∧
    (ShmState.init.run [ShmOp.cloneH, ShmOp.dropH, ShmOp.dropH]).ref_ctr = 0 ∧
    (ShmState.init.run [ShmOp.cloneH, ShmOp.dropH, ShmOp.dropH]).destructorRuns = 1 ∧
    (ShmState.init.run [ShmOp.cloneH, ShmOp.dropH, ShmOp.dropH]).unmapped = true := by
  have h := shm_refcount_lifecycle [ShmOp.cloneH, ShmOp.dropH, ShmOp.dropH]
    { ref_ctr := 2, destructorRuns := 0, unmapped := false } (by decide)
  exact ⟨by decide, h.2.2.2.2.2.1, h.2.2.2.2.2.2.1, h.2.2.2.2.2.2.2.mpr (by decide)⟩

/-- C3: the system-call trace of a successful `Shm::new` is `shm_open`,
`ftruncate`, `mmap`, `close`, placement-write — it contains no
`shm_unlink`: contrary to the claim (and to the spec's stated intent), the
code never unlinks the name, which therefore outlives construction. -/
theorem shm_new_never_unlinks :
    Shm.newTrace = [SysEvent.shmOpenEv, SysEvent.ftruncateEv, SysEvent.mmapEv,
      SysEvent.closeEv, SysEvent.placementWriteEv] ∧
    SysEvent.shmUnlinkEv ∉ Shm.newTrace := by
  exact ⟨rfl, by decide⟩

end ShmIpc
